import Mathlib

/-!
Verification of the boton IRC bot's core (src/irc.rs, src/bot.rs) against its
natural-language specification. Rust strings are modelled as `List Char`,
raw socket bytes as `List Nat` (CR = 13, LF = 10). All definitions are
shallow embeddings of the corresponding Rust items; each doc comment names
the source location it embeds.
-/

namespace Boton

/-! ## Data model (src/irc.rs:396-424) -/

/-- Rust `String` / `&str`, modelled as its character list. -/
abbrev Str := List Char

/-- List of recognized IRC commands (src/irc.rs:413-424, `enum Command`). -/
inductive Command
  | Join
  | Nick
  | Notice
  | Privmsg
  | Ping
  | RplWelcome
  | ErrNicknameInUse
  | Other (val : Str)
deriving DecidableEq, Repr

/-- Type describing a single IRC message (src/irc.rs:404-411, `struct Message`). -/
structure Message where
  source : Option Str
  command : Command
  target : Option Str
  parameters : List Str
deriving DecidableEq, Repr

/-- Type identifying a single user (src/irc.rs:396-402, `struct User`). -/
structure User where
  nick : Str
  ident : Str
  host : Str
deriving DecidableEq, Repr

/-! ## Frame Decoder (src/irc.rs:12-35) -/

/-- src/irc.rs:12-35 `process_buf`: the Rust loop scans the byte buffer left
to right for the two-byte CR LF window (bytes 13, 10); each match emits the
bytes since the previous match as one line and moves `start` past the
delimiter; finally `src.advance(start)` drops the consumed prefix, leaving
the trailing partial line. The recursion below walks the same scan: a CR LF
pair closes the current line, any other leading byte extends the current
line, and the unterminated tail is returned as the remaining buffer
(`scanCRLF`/`process_buf_scan` below transcribe the loop literally with its
indices, and `process_buf_scan_eq` proves the two agree on every buffer).
The per-line lossy UTF-8 decode and `parse_line` call that `process_buf`
then applies to each line are modelled separately by `parseLine`; this
function is the framing layer the spec calls the Frame Decoder. -/
def process_buf : List Nat → List (List Nat) × List Nat
  | 13 :: 10 :: rest =>
    let (ls, r) := process_buf rest
    ([] :: ls, r)
  | b :: rest =>
    let (ls, r) := process_buf rest
    match ls with
    | [] => ([], b :: r)
    | l :: ls' => ((b :: l) :: ls', r)
  | [] => ([], [])

/-- Whether a byte buffer contains the CR LF delimiter anywhere. -/
def hasCRLF : List Nat → Bool
  | 13 :: 10 :: _ => true
  | _ :: rest => hasCRLF rest
  | [] => false

/-- Rebuild a buffer from complete lines (each re-terminated by CR LF). -/
def joinCRLF (ls : List (List Nat)) : List Nat :=
  (ls.map (fun l => l ++ [13, 10])).flatten

/-- One incremental step of the read loop's framing: append one byte to the
buffered partial line, run `process_buf`, and collect the lines it returns. -/
def feedOne (st : List (List Nat) × List Nat) (b : Nat) : List (List Nat) × List Nat :=
  let (ls, r) := process_buf (st.2 ++ [b])
  (st.1 ++ ls, r)

/-- Feed a byte sequence to the Frame Decoder one byte at a time, processing
the accumulated buffer after each append. -/
def feedIncremental (bytes : List Nat) : List (List Nat) × List Nat :=
  bytes.foldl feedOne ([], [])

/-! ## Message Codec, decode side (src/irc.rs:37-124) -/

/-- Space predicate handed to the parser (src/irc.rs:37-39, `is_space`). -/
def is_space (ch : Char) : Bool := ch = ' '

/-- nom `take_till1 p` over a string slice: takes the longest prefix of
characters for which `p` is false, failing (`none`) when that prefix is empty
(so also on empty input). Returns (remaining input, taken prefix), in the
(rest, value) order of nom's `IResult`. -/
def takeTill1 (p : Char → Bool) (input : Str) : Option (Str × Str) :=
  let taken := input.takeWhile (fun c => !p c)
  if taken.isEmpty then none else some (input.dropWhile (fun c => !p c), taken)

/-- src/irc.rs:41-45 `starts_with_colon`: `cond(input.starts_with(':'),
take(1))` — consume one leading `:` when present; returns (remaining input,
whether a colon was consumed). The combinator never fails, since `take(1)`
runs only when the input is known to start with `:`. -/
def startsWithColon (input : Str) : Str × Bool :=
  if input.head? = some ':' then (input.tail, true) else (input, false)

/-- src/irc.rs:47-51 `skip_space`: `many0(char(' '))`, dropping every leading
space. -/
def skipSpace (input : Str) : Str := input.dropWhile (fun c => c = ' ')

/-- src/irc.rs:53-64 `parse_parameter`: a parameter starting with `:` consumes
the entire rest of the line (colon stripped, remaining input empty); otherwise
a nonempty space-free token is taken (`take_till1 is_space`, failing on an
empty token) and the spaces after it are skipped. -/
def parseParameter (input : Str) : Option (Str × Str) :=
  let (input1, hasColon) := startsWithColon input
  if hasColon then some ([], input1)
  else
    match takeTill1 is_space input1 with
    | none => none
    | some (rest, param) => some (skipSpace rest, param)

/-- nom `many0(parse_parameter)` (src/irc.rs:84): run `parse_parameter`
repeatedly until it fails, collecting the parameters; returns (remaining
input, parameters). The fuel argument only bounds the number of iterations:
since every successful `parseParameter` consumes at least one character
(`parseParameter_consumes`), `input.length` iterations always suffice and
`parseParams` below runs with exactly that much fuel
(`parseParamsF_fuel_eq` shows any sufficient fuel gives the same result). -/
def parseParamsF : Nat → Str → Str × List Str
  | 0, input => (input, [])
  | fuel + 1, input =>
    match parseParameter input with
    | none => (input, [])
    | some (rest, p) =>
      let (r, ps) := parseParamsF fuel rest
      (r, p :: ps)

/-- The `many0(parse_parameter)` loop of src/irc.rs:84. -/
def parseParams (input : Str) : Str × List Str := parseParamsF input.length input

/-- src/irc.rs:106-124, `impl TryFrom<&str> for Command`: the empty verb is an
error; `PING`, `NOTICE`, `PRIVMSG`, `001` and `433` map to their variants, and
every other (nonempty) verb becomes `Other(verb)`. -/
def Command.tryFrom (value : Str) : Except String Command :=
  if value.isEmpty then .error "empty string as command"
  else if value = "PING".data then .ok .Ping
  else if value = "NOTICE".data then .ok .Notice
  else if value = "PRIVMSG".data then .ok .Privmsg
  else if value = "001".data then .ok .RplWelcome
  else if value = "433".data then .ok .ErrNicknameInUse
  else .ok (.Other value)

/-- Outcome of `parse_line` together with the panics its body can raise:
nom's `Ok((rest, msg))`, a nom parse error, or a panic — either the
`.unwrap()` on `Command::try_from` at src/irc.rs:80 (were the verb conversion
to fail), or the unconditional `params[1..]` slice at src/irc.rs:95, which in
Rust panics whenever the parsed parameter vector is empty (range start 1 out
of range for a slice of length 0). -/
inductive ParseResult
  | ok (rest : Str) (msg : Message)
  | fail
  | panicked
deriving DecidableEq, Repr

/-- The part of `parse_line` after the optional source prefix
(src/irc.rs:78-103): the verb token (`take_till1 is_space`, then spaces
skipped) run through `Command::try_from(...).unwrap()` (a `panicked` models
the panic of the `unwrap` at src/irc.rs:80), then `many0(parse_parameter)`.
When no parameter was parsed, the unconditional `params[1..]` slice at
src/irc.rs:95 panics (slicing an empty vector from index 1), modelled by the
`panicked` of the empty-parameter branch; otherwise the first parameter is
promoted to `target` (src/irc.rs:88-92) and the remaining ones
(`params[1..]`) become `parameters`. -/
def parseLineAfterSource (source : Option Str) (i2 : Str) : ParseResult :=
  match takeTill1 is_space i2 with
  | none => .fail
  | some (i3, commandText) =>
    match Command.tryFrom commandText with
    | .error _ => .panicked
    | .ok command =>
      let (rest, params) := parseParams (skipSpace i3)
      match params with
      | [] => .panicked
      | p :: ps =>
        .ok rest { source := source, command := command,
                   target := some p, parameters := ps }

/-- src/irc.rs:66-104 `parse_line`: when the line starts with `:`, the source
token is read up to the next space (`take_till1`, failing on an empty token)
and following spaces are skipped (src/irc.rs:67-76); the rest of the line is
then parsed by `parseLineAfterSource`. -/
def parseLine (input : Str) : ParseResult :=
  let (i1, hasSource) := startsWithColon input
  if hasSource then
    match takeTill1 is_space i1 with
    | none => .fail
    | some (rest, src) => parseLineAfterSource (some src) (skipSpace rest)
  else parseLineAfterSource none i1

/-! ## Message Codec, encode side (src/irc.rs:126-144 and 188-215) -/

/-- src/irc.rs:126-144, `impl TryFrom<&Command> for String`: wire verb of a
sendable command (`Ping` is sent as `PONG`); the reply-only variants
`ErrNicknameInUse` and `RplWelcome` yield `Err(anyhow!("invalid command"))`. -/
def commandToString : Command → Except String Str
  | .Join => .ok "JOIN".data
  | .Nick => .ok "NICK".data
  | .Notice => .ok "NOTICE".data
  | .Ping => .ok "PONG".data
  | .Privmsg => .ok "PRIVMSG".data
  | .Other val => .ok val
  | .ErrNicknameInUse => .error "invalid command"
  | .RplWelcome => .error "invalid command"

/-- The parameter loop of `send_message` (src/irc.rs:201-209): each parameter
is preceded by a space, and the last one (`idx == len-1`) additionally by a
colon. -/
def encodeParams : List Str → Str
  | [] => []
  | [p] => ' ' :: ':' :: p
  | p :: rest => ' ' :: (p ++ encodeParams rest)

/-- The target block of `send_message` (src/irc.rs:193-199): a space, then a
colon when the target is the only token (`parameters` empty) and contains a
space, then the target itself. -/
def encodeTarget (target : Option Str) (parameters : List Str) : Str :=
  match target with
  | none => []
  | some t => ' ' :: ((if parameters.isEmpty && t.contains ' ' then [':'] else []) ++ t)

/-- src/irc.rs:188-215 `Connection::send_message`: encode the command verb
(propagating the reply-only error before anything is written), the optional
target, the parameters and the CR LF terminator; on success the returned
string is exactly the byte sequence written and flushed to the socket. -/
def send_message (msg : Message) : Except String Str :=
  match commandToString msg.command with
  | .error e => .error e
  | .ok cmd => .ok (cmd ++ encodeTarget msg.target msg.parameters
      ++ encodeParams msg.parameters ++ ['\r', '\n'])

/-- One iteration of the send task (src/irc.rs:235-240): a queued message is
encoded and written, and a `send_message` error is `unwrap`ped, panicking the
send task instead of silently dropping the message. -/
inductive SendStep
  | wrote (line : Str)
  | panicked (e : String)
deriving DecidableEq, Repr

/-- The send task's handling of one queued message (src/irc.rs:235-240). -/
def sendTaskStep (msg : Message) : SendStep :=
  match send_message msg with
  | .ok line => .wrote line
  | .error e => .panicked e

/-! ## Connection Actor, read and send tasks (src/irc.rs:217-267) -/

/-- Result of one `Connection::receive_messages` call (src/irc.rs:251-267),
given the bytes the socket read appended to the buffer (`chunk`, empty when
`read_buf` returned 0) and the buffer contents before the read. On a zero
read: an empty buffer yields `Err(anyhow!("closed connection by peer"))`
and a non-empty buffer hits `panic!("unread data in read buffer")`.
Otherwise the grown buffer is framed by `process_buf` and the complete lines
are broadcast (their decoding by `parse_line` is modelled by `parseLine`). -/
inductive ReadStep
  | ok (lines : List (List Nat)) (buffer : List Nat)
  | closedErr
  | panicked
deriving DecidableEq, Repr

/-- One `receive_messages` call (src/irc.rs:251-267). -/
def receive_messages (chunk : List Nat) (buffer : List Nat) : ReadStep :=
  if chunk.isEmpty then
    if buffer.isEmpty then .closedErr else .panicked
  else
    let (lines, rest) := process_buf (buffer ++ chunk)
    .ok lines rest

/-- How a task run ends, as observed through its join/completion handle. -/
inductive TaskEnd
  | clean
  | failed (reason : String)
deriving DecidableEq, Repr

/-- The read task's loop body (src/irc.rs:226-231) calls
`receive_messages(...).unwrap()`: an `Ok` continues the loop (`none`), an
`Err` is unwrapped into a panic, and a panic ends the task abnormally; either
failure reaches the connection's completion handle (`read_handle.await?`,
src/irc.rs:243) as an error, never as a clean end. -/
def readTaskEnd : ReadStep → Option TaskEnd
  | .ok _ _ => none
  | .closedErr => some (.failed "closed connection by peer")
  | .panicked => some (.failed "unread data in read buffer")

/-! ## Message constructors and the user view (src/irc.rs:279-329) -/

/-- src/irc.rs:280-287 `Message::single_argument`. -/
def Message.singleArgument (cmd : Command) (arg : Str) : Message :=
  { source := none, command := cmd, target := some arg, parameters := [] }

/-- src/irc.rs:298-300 `Message::nick`. -/
def Message.nick (newNick : Str) : Message :=
  Message.singleArgument .Nick newNick

/-- src/irc.rs:302-304 `Message::join`. -/
def Message.join (channel : Str) : Message :=
  Message.singleArgument .Join channel

/-- Split a list at the first occurrence of `c`: `some (before, after)` with
`before` free of `c`, or `none` when `c` does not occur (the `find` calls of
src/irc.rs:312-313). -/
def splitOnce (c : Char) : Str → Option (Str × Str)
  | [] => none
  | x :: xs =>
    if x = c then some ([], xs)
    else
      match splitOnce c xs with
      | none => none
      | some (a, b) => some (x :: a, b)

/-- src/irc.rs:310-328 `Message::source_as_user`: split the source at the
first `!`, then the part after it at the first `@` (the source searches for
`@` from the `!` inclusive, which finds the same `@` since `!` itself is not
`@`), yielding `User {nick, ident, host}`; absent a source, a `!`, or an `@`
after the `!`, the result is `None`. -/
def source_as_user (msg : Message) : Option User :=
  match msg.source with
  | none => none
  | some src =>
    match splitOnce '!' src with
    | none => none
    | some (nick, rest) =>
      match splitOnce '@' rest with
      | none => none
      | some (ident, host) => some { nick := nick, ident := ident, host := host }

/-! ## Control loop (src/bot.rs:61-75 with src/irc.rs:344-361) -/

/-- One dispatch step of the control loop (src/bot.rs:66-71): a `Ping` is
answered by re-enqueueing the received message itself (`reply_pong`,
src/irc.rs:351-354); an `ErrNicknameInUse` asserts a non-empty parameter list
(`none` models the assertion failure) and enqueues `Message::nick` of the
first parameter with `_` appended (`reply_nick_in_use`, src/irc.rs:356-361);
an `RplWelcome` enqueues one `Message::join` per configured channel
(`IRC::join`, src/irc.rs:344-349); anything else sends nothing. -/
def controlLoopStep (channels : List Str) (msg : Message) : Option (List Message) :=
  match msg.command with
  | .Ping => some [msg]
  | .ErrNicknameInUse =>
    match msg.parameters with
    | [] => none
    | p :: _ => some [Message.nick (p ++ ['_'])]
  | .RplWelcome => some (channels.map Message.join)
  | _ => some []

/-! ## Bot supervisor (src/bot.rs:44-120) -/

/-- Configuration of one bot (src/bot.rs:24-42, `struct Bot`); the server is
(hostname, port). -/
structure Bot where
  server : String × Nat
  useTls : Bool
  nick : String
  ident : String
  realName : String
  channels : List String
deriving DecidableEq, Repr

/-- Global configuration (src/bot.rs:16-21, `struct Config`; the plugin
configuration map plays no role in the supervision logic). -/
structure Config where
  bots : List Bot
deriving DecidableEq, Repr

/-- src/bot.rs:116-119 `Config::spawn_task`: restart the bot for `server` by
looking up the first configured bot whose hostname equals `server`
(`self.bots.iter().find(|b| b.server.0 == server)`); `none` models the
`Err("could not find server ...")` case. -/
def Config.spawnTask (cfg : Config) (server : String) : Option Bot :=
  cfg.bots.find? (fun b => b.server.1 == server)

/-- The reconnection loop of src/bot.rs:102-111 for one server, driven by the
list of successive group outcomes (`true` = the completed group's result
`is_err()`): while the awaited handle is an error, log and spawn the group
again via `Config::spawn_task`; stop at the first clean outcome ("Closed
cleanly, shutting down bot"), or when the lookup itself fails. Returns the
configurations the loop restarts, in order. -/
def reconnectSpawns (cfg : Config) (server : String) : List Bool → List Bot
  | [] => []
  | isErr :: rest =>
    if isErr then
      match Config.spawnTask cfg server with
      | some b => b :: reconnectSpawns cfg server rest
      | none => []
    else []

/-- Teardown signals the bot task issues when its connection completes
(src/bot.rs:77-83): abort every plugin task, then abort the control-loop
task, regardless of whether the connection's result was an error. -/
inductive SupAction
  | abortPlugin (name : String)
  | abortControlLoop
deriving DecidableEq, Repr

/-- src/bot.rs:79-82: the abort sequence run after `irc_handle` completes. -/
def botTeardown (plugins : List String) : List SupAction :=
  plugins.map SupAction.abortPlugin ++ [SupAction.abortControlLoop]

/-! ## Wire-format well-formedness (specification-side predicates) -/

/-- A wire token the decoder reproduces unchanged: nonempty, containing no
space and not starting with a colon. -/
def validToken (t : Str) : Prop := t ≠ [] ∧ ' ' ∉ t ∧ t.head? ≠ some ':'

/-- The target/parameter shapes the wire format can represent faithfully:
all parameters but the last are valid tokens; the target must be present
(with no target and no parameters the encoded line is a bare verb, on which
the decoder panics at the `params[1..]` slice of src/irc.rs:95, and with
parameters but no target the decoder would promote the first parameter) and
a valid token when parameters follow (a space-containing target is allowed
only when it is the sole token, where the encoder colon-protects it). -/
def wellFormedShape (target : Option Str) (ps : List Str) : Prop :=
  (∀ p ∈ ps.dropLast, validToken p) ∧
  match target, ps with
  | none, _ => False
  | some t, [] => validToken t ∨ ' ' ∈ t
  | some t, _ :: _ => validToken t

/-! ## The index-faithful windows scan, a fidelity companion to `process_buf` -/

/-- The `windows(2)` loop of src/irc.rs:15-31: from window position `pos`
with pending line start `start`, returns the emitted lines and the final
`start`. -/
def scanCRLF (src : List Nat) (start pos : Nat) : List (List Nat) × Nat :=
  if _h : pos + 1 < src.length then
    if src[pos]? = some 13 ∧ src[pos + 1]? = some 10 then
      let (ls, fin) := scanCRLF src (pos + 2) (pos + 1)
      ((src.drop start).take (pos - start) :: ls, fin)
    else scanCRLF src start (pos + 1)
  else ([], start)
termination_by src.length - pos

/-- src/irc.rs:12-35 `process_buf` as the literal loop: scan all windows from
position 0, then drop the consumed prefix (`src.advance(start)`). -/
def process_buf_scan (src : List Nat) : List (List Nat) × List Nat :=
  let (ls, fin) := scanCRLF src 0 0
  (ls, src.drop fin)

/-! ## Theorems -/

example : process_buf [97, 13, 10, 98] = ([[97]], [98]) := by decide

example : process_buf [13, 13, 10, 99] = ([[13]], [99]) := by decide

example : feedIncremental [97, 13, 10, 98] = ([[97]], [98]) := by decide

/-- A buffer with no CR LF window yields no lines and is left untouched. -/
theorem process_buf_no_crlf (s : List Nat) (h : hasCRLF s = false) :
    process_buf s = ([], s) := by
  induction s using process_buf.induct with
  | case1 rest ls r hpb ih => simp [hasCRLF] at h
  | case2 b rest hg r hpb ih =>
    rw [hasCRLF.eq_2 b rest hg] at h
    have := ih h
    rw [hpb] at this
    have hr : r = rest := by simpa using congrArg Prod.snd this
    rw [process_buf.eq_2 b rest hg, hpb, hr]
  | case3 b rest hg r l ls' hpb ih =>
    rw [hasCRLF.eq_2 b rest hg] at h
    have := ih h
    rw [hpb] at this
    have := congrArg Prod.fst this
    simp at this
  | case4 => rfl

/-- The complete lines and the leftover partial line reassemble the buffer:
`process_buf` consumes exactly the prefix of complete lines. -/
theorem process_buf_reconstruct (s : List Nat) :
    joinCRLF (process_buf s).1 ++ (process_buf s).2 = s := by
  induction s using process_buf.induct with
  | case1 rest ls r hpb ih =>
    rw [process_buf.eq_1, hpb]
    rw [hpb] at ih
    simpa [joinCRLF] using ih
  | case2 b rest hg r hpb ih =>
    rw [process_buf.eq_2 b rest hg, hpb]
    rw [hpb] at ih
    simp only [joinCRLF, List.map_nil, List.flatten_nil, List.nil_append] at ih ⊢
    simp [ih]
  | case3 b rest hg r l ls' hpb ih =>
    rw [process_buf.eq_2 b rest hg, hpb]
    rw [hpb] at ih
    simp only [joinCRLF, List.map_cons, List.flatten_cons, List.append_assoc] at ih ⊢
    simpa using ih
  | case4 => rfl

/-- If no complete line was found, the buffer is left exactly as it was. -/
theorem process_buf_fst_nil (s : List Nat) (h : (process_buf s).1 = []) :
    (process_buf s).2 = s := by
  have hr := process_buf_reconstruct s
  rw [h] at hr
  simpa [joinCRLF] using hr

/-- The leftover buffer after a `process_buf` call contains no CR LF:
only a trailing partial line remains for the next call. -/
theorem process_buf_rest_no_crlf (s : List Nat) :
    hasCRLF (process_buf s).2 = false := by
  induction s using process_buf.induct with
  | case1 rest ls r hpb ih =>
    rw [process_buf.eq_1, hpb]
    rw [hpb] at ih
    exact ih
  | case2 b rest hg r hpb ih =>
    have hr : r = rest := by
      have := process_buf_fst_nil rest (by rw [hpb])
      rw [hpb] at this
      exact this
    rw [process_buf.eq_2 b rest hg, hpb]
    subst hr
    rw [hpb] at ih
    show hasCRLF (b :: r) = false
    rw [hasCRLF.eq_2 b r hg]
    exact ih
  | case3 b rest hg r l ls' hpb ih =>
    rw [process_buf.eq_2 b rest hg, hpb]
    rw [hpb] at ih
    exact ih
  | case4 => rfl

/-- Composition law: framing a concatenation first frames the left part, then
frames its leftover prepended to the right part. -/
theorem process_buf_append (a b : List Nat) :
    process_buf (a ++ b) =
      ((process_buf a).1 ++ (process_buf ((process_buf a).2 ++ b)).1,
       (process_buf ((process_buf a).2 ++ b)).2) := by
  induction a using process_buf.induct with
  | case1 rest ls r hpb ih =>
    show process_buf (13 :: 10 :: (rest ++ b)) = _
    rw [process_buf.eq_1 (rest ++ b), ih, process_buf.eq_1 rest, hpb]
    simp
  | case2 b0 rest hg r hpb ih =>
    have hr : r = rest := by
      have := process_buf_fst_nil rest (by rw [hpb])
      rw [hpb] at this
      exact this
    rw [process_buf.eq_2 b0 rest hg, hpb, hr]
    simp
  | case3 b0 rest hg r l ls' hpb ih =>
    have hne : rest ≠ [] := by
      intro hnil
      rw [hnil, process_buf.eq_3] at hpb
      simp at hpb
    have hg' : ∀ r1, b0 = 13 → rest ++ b = 10 :: r1 → False := by
      intro r1 h13 hcons
      rcases rest with _ | ⟨c, rest2⟩
      · exact hne rfl
      · have hc : c = 10 := by
          have := congrArg (fun l => l.head?) hcons
          simpa using this
        exact hg rest2 h13 (by rw [hc])
    show process_buf (b0 :: (rest ++ b)) = _
    rw [process_buf.eq_2 b0 (rest ++ b) hg', ih, process_buf.eq_2 b0 rest hg, hpb]
    simp
  | case4 => simp [process_buf.eq_3]

/-- Folding the incremental feed from a partial-line state tracks framing of
the whole stream. -/
theorem foldl_feedOne (bytes : List Nat) : ∀ acc buf, hasCRLF buf = false →
    bytes.foldl feedOne (acc, buf) =
      (acc ++ (process_buf (buf ++ bytes)).1, (process_buf (buf ++ bytes)).2) := by
  induction bytes with
  | nil =>
    intro acc buf h
    simp [process_buf_no_crlf buf h]
  | cons b rest ih =>
    intro acc buf h
    rw [List.foldl_cons,
      show feedOne (acc, buf) b
        = (acc ++ (process_buf (buf ++ [b])).1, (process_buf (buf ++ [b])).2) from rfl,
      ih _ _ (process_buf_rest_no_crlf (buf ++ [b]))]
    have hsplit : buf ++ b :: rest = (buf ++ [b]) ++ rest := by simp
    rw [hsplit, process_buf_append (buf ++ [b]) rest]
    simp

/-- `hasCRLF` in the window view: a buffer is CR LF-free exactly when no
window position holds the byte pair (13, 10). -/
theorem hasCRLF_eq_false_iff (l : List Nat) :
    hasCRLF l = false
      ↔ ∀ j, j + 1 < l.length → ¬(l[j]? = some 13 ∧ l[j+1]? = some 10) := by
  induction l using hasCRLF.induct with
  | case1 rest =>
    simp only [hasCRLF]
    constructor
    · intro h
      cases h
    · intro h
      exact absurd ⟨by simp, by simp⟩ (h 0 (by simp))
  | case2 b rest hg ih =>
    rw [hasCRLF.eq_2 b rest hg, ih]
    constructor
    · intro h j hj hpair
      cases j with
      | zero =>
        obtain ⟨h1, h2⟩ := hpair
        have hb : b = 13 := by simpa using h1
        rcases rest with _ | ⟨c, r2⟩
        · simp at h2
        · have hc : c = 10 := by simpa using h2
          exact hg r2 hb (by rw [hc])
      | succ j' =>
        exact h j' (by simpa using hj) (by simpa using hpair)
    · intro h j hj hpair
      exact h (j+1) (by simpa using hj) (by simpa using hpair)
  | case3 =>
    simp [hasCRLF]

/-- Dropping the head of a CR LF-free buffer keeps it CR LF-free. -/
theorem hasCRLF_cons_false {c : Nat} {l : List Nat}
    (h : hasCRLF (c :: l) = false) : hasCRLF l = false := by
  rcases l with _ | ⟨d, l2⟩
  · rfl
  · by_cases hc : c = 13 ∧ d = 10
    · obtain ⟨hc1, hc2⟩ := hc
      subst hc1
      subst hc2
      simp [hasCRLF] at h
    · rw [hasCRLF.eq_2 c (d :: l2) (by
        intro r1 h1 h2
        apply hc
        refine ⟨h1, ?_⟩
        cases h2
        rfl)] at h
      exact h

/-- `process_buf` on a buffer whose first CR LF window is made explicit: the
CR LF-free prefix becomes the first emitted line. -/
theorem process_buf_first_match (a b : List Nat) (ha : hasCRLF a = false) :
    process_buf (a ++ 13 :: 10 :: b)
      = (a :: (process_buf b).1, (process_buf b).2) := by
  induction a with
  | nil =>
    rw [List.nil_append, process_buf.eq_1]
  | cons c a' ih =>
    have hg : ∀ r1, c = 13 → a' ++ 13 :: 10 :: b = 10 :: r1 → False := by
      intro r1 hc hcons
      rcases a' with _ | ⟨d, a2⟩
      · simp at hcons
      · have hd : d = 10 := by simpa using congrArg (fun l => l.head?) hcons
        subst hc
        subst hd
        simp [hasCRLF] at ha
    rw [List.cons_append, process_buf.eq_2 c (a' ++ 13 :: 10 :: b) hg,
      ih (hasCRLF_cons_false ha)]

/-- When no window position remains, the suffix from `start` on is CR LF-free
and `process_buf` leaves it untouched. -/
theorem scanCRLF_terminal (src : List Nat) (pos start : Nat)
    (hlen : ¬ pos + 1 < src.length)
    (hno : ∀ j, start ≤ j → j < pos → j + 1 < src.length →
      ¬(src[j]? = some 13 ∧ src[j+1]? = some 10)) :
    ([] : List (List Nat)) = (process_buf (src.drop start)).1
    ∧ src.drop start = (process_buf (src.drop start)).2 := by
  have hnc : hasCRLF (src.drop start) = false := by
    rw [hasCRLF_eq_false_iff]
    intro j hj hpair
    rw [List.length_drop] at hj
    rw [List.getElem?_drop, List.getElem?_drop] at hpair
    have hadd : start + (j + 1) = start + j + 1 := by omega
    rw [hadd] at hpair
    exact hno (start + j) (by omega) (by omega) (by omega) hpair
  rw [process_buf_no_crlf (src.drop start) hnc]
  exact ⟨rfl, rfl⟩

/-- The invariant of the windows scan: from state (start, pos) with no CR LF
window strictly before `pos`, the scan emits exactly the lines `process_buf`
finds in the suffix from `start`, and its final `start` indexes that
suffix's trailing partial line. -/
theorem scanCRLF_spec (src : List Nat) : ∀ d pos start, src.length - pos ≤ d →
    start ≤ pos →
    (∀ j, start ≤ j → j < pos → j + 1 < src.length →
      ¬(src[j]? = some 13 ∧ src[j+1]? = some 10)) →
    (scanCRLF src start pos).1 = (process_buf (src.drop start)).1
    ∧ src.drop (scanCRLF src start pos).2 = (process_buf (src.drop start)).2 := by
  intro d
  induction d with
  | zero =>
    intro pos start hd hsp hno
    have hlen : ¬ pos + 1 < src.length := by omega
    rw [scanCRLF, dif_neg hlen]
    exact scanCRLF_terminal src pos start hlen hno
  | succ d' ihd =>
    intro pos start hd hsp hno
    by_cases hlen : pos + 1 < src.length
    · by_cases hwin : src[pos]? = some 13 ∧ src[pos + 1]? = some 10
      · obtain ⟨h13, h10⟩ := hwin
        have hpos : pos < src.length := by omega
        have e13 : src[pos] = 13 := by
          have hq := List.getElem?_eq_getElem hpos
          rw [hq] at h13
          exact Option.some.inj h13
        have e10 : src[pos + 1] = 10 := by
          have hq := List.getElem?_eq_getElem hlen
          rw [hq] at h10
          exact Option.some.inj h10
        have hsurg : src.drop start
            = (src.drop start).take (pos - start) ++ 13 :: 10 :: src.drop (pos + 2) := by
          conv_lhs => rw [← List.take_append_drop (pos - start) (src.drop start)]
          congr 1
          rw [List.drop_drop]
          rw [show start + (pos - start) = pos from by omega]
          rw [List.drop_eq_getElem_cons hpos, e13,
            List.drop_eq_getElem_cons hlen, e10]
        have ha : hasCRLF ((src.drop start).take (pos - start)) = false := by
          rw [hasCRLF_eq_false_iff]
          intro j hj hpair
          rw [List.length_take, List.length_drop] at hj
          rw [List.getElem?_take_of_lt (by omega), List.getElem?_take_of_lt (by omega),
            List.getElem?_drop, List.getElem?_drop] at hpair
          have hadd : start + (j + 1) = start + j + 1 := by omega
          rw [hadd] at hpair
          exact hno (start + j) (by omega) (by omega) (by omega) hpair
        have hstep : scanCRLF src (pos + 2) (pos + 1) = scanCRLF src (pos + 2) (pos + 2) := by
          rw [scanCRLF]
          by_cases h2 : pos + 1 + 1 < src.length
          · rw [dif_pos h2, if_neg (by
              rintro ⟨hx, -⟩
              rw [h10] at hx
              cases hx)]
          · rw [dif_neg h2, scanCRLF, dif_neg (by omega)]
        obtain ⟨ih1, ih2⟩ := ihd (pos + 2) (pos + 2) (by omega) (le_refl _)
          (fun j h1 h2 _ => absurd h2 (by omega))
        rw [scanCRLF, dif_pos hlen, if_pos ⟨h13, h10⟩]
        dsimp only
        rw [hstep]
        rcases hsc : scanCRLF src (pos + 2) (pos + 2) with ⟨ls, fin⟩
        rw [hsc] at ih1 ih2
        dsimp only at ih1 ih2 ⊢
        have hpb : process_buf (src.drop start)
            = ((src.drop start).take (pos - start) :: (process_buf (src.drop (pos + 2))).1,
               (process_buf (src.drop (pos + 2))).2) := by
          conv_lhs => rw [hsurg]
          exact process_buf_first_match _ _ ha
        constructor
        · rw [hpb, ih1]
        · rw [hpb]
          exact ih2
      · have hno' : ∀ j, start ≤ j → j < pos + 1 → j + 1 < src.length →
            ¬(src[j]? = some 13 ∧ src[j+1]? = some 10) := by
          intro j h1 h2 h3
          rcases Nat.lt_or_ge j pos with hj | hj
          · exact hno j h1 hj h3
          · have hjp : j = pos := by omega
            subst hjp
            exact hwin
        rw [scanCRLF, dif_pos hlen, if_neg hwin]
        exact ihd (pos + 1) start (by omega) (by omega) hno'
    · rw [scanCRLF, dif_neg hlen]
      exact scanCRLF_terminal src pos start hlen hno

/-- The literal windows-scan transcription of src/irc.rs:12-35 computes
exactly the recursive `process_buf`: the two embeddings of the Frame Decoder
agree on every byte buffer. -/
theorem process_buf_scan_eq (src : List Nat) : process_buf_scan src = process_buf src := by
  obtain ⟨h1, h2⟩ := scanCRLF_spec src src.length 0 0 (by omega) (le_refl 0)
    (fun j hj1 hj2 _ => absurd hj2 (by omega))
  rw [List.drop_zero] at h1 h2
  unfold process_buf_scan
  rcases hsc : scanCRLF src 0 0 with ⟨ls, fin⟩
  rw [hsc] at h1 h2
  dsimp only at h1 h2 ⊢
  rw [h1, h2]

/-- C6: feeding a byte sequence to the Frame Decoder one byte at a time,
processing the accumulated buffer after each append, produces the same ordered
list of complete CR LF-delimited lines as feeding the whole sequence as one
contiguous chunk; moreover each call consumes exactly the prefix of complete
lines (the lines plus the remaining buffer reassemble the input) and leaves
only a trailing partial line, free of CR LF, in the buffer for the next call;
and the literal windows-scan transcription of the loop agrees with
`process_buf` on the whole sequence. -/
theorem frame_decoder_incremental_eq_chunk (bytes : List Nat) :
    feedIncremental bytes = process_buf bytes
    ∧ joinCRLF (process_buf bytes).1 ++ (process_buf bytes).2 = bytes
    ∧ hasCRLF (process_buf bytes).2 = false
    ∧ process_buf_scan bytes = process_buf bytes := by
  refine ⟨?_, process_buf_reconstruct bytes, process_buf_rest_no_crlf bytes,
    process_buf_scan_eq bytes⟩
  unfold feedIncremental
  rw [foldl_feedOne bytes [] [] rfl]
  simp

theorem skipSpace_length_le (input : Str) : (skipSpace input).length ≤ input.length :=
  List.Sublist.length_le (List.dropWhile_sublist _)

/-- A successful `takeTill1` takes a nonempty token and consumes it. -/
theorem takeTill1_eq_some {p : Char → Bool} {input rest tok : Str}
    (h : takeTill1 p input = some (rest, tok)) :
    tok = input.takeWhile (fun c => !p c) ∧ rest = input.dropWhile (fun c => !p c)
      ∧ tok ≠ [] := by
  unfold takeTill1 at h
  by_cases he : (input.takeWhile (fun c => !p c)).isEmpty
  · simp [he] at h
  · simp only [he, if_neg, Bool.false_eq_true, not_false_iff, if_false,
      Option.some.injEq, Prod.mk.injEq] at h
    refine ⟨h.2.symm, h.1.symm, ?_⟩
    rw [← h.2]
    intro hnil
    rw [hnil] at he
    simp at he

/-- A successful `parseParameter` always consumes at least one character. -/
theorem parseParameter_consumes {input rest param : Str}
    (h : parseParameter input = some (rest, param)) : rest.length < input.length := by
  unfold parseParameter startsWithColon at h
  by_cases hc : input.head? = some ':'
  · rcases input with _ | ⟨c, tl⟩
    · simp at hc
    · simp only [hc, if_pos, if_true] at h
      simp only [Option.some.injEq, Prod.mk.injEq] at h
      rw [← h.1]
      simp
  · simp only [hc, if_neg, if_false] at h
    rcases ht : takeTill1 is_space input with _ | ⟨r, tok⟩
    · rw [ht] at h; simp at h
    · rw [ht] at h
      simp only [Bool.false_eq_true, if_false, Option.some.injEq, Prod.mk.injEq] at h
      obtain ⟨htok, hrest, hne⟩ := takeTill1_eq_some ht
      have h1 : r.length < input.length := by
        have hsum := congrArg List.length (List.takeWhile_append_dropWhile
          (p := fun c => !is_space c) (l := input))
        rw [List.length_append] at hsum
        rw [hrest]
        have : 0 < (input.takeWhile (fun c => !is_space c)).length := by
          rw [← htok]
          exact List.length_pos_of_ne_nil hne
        omega
      rw [← h.1]
      exact lt_of_le_of_lt (skipSpace_length_le r) h1

theorem parseParameter_nil : parseParameter [] = none := rfl

/-- Any fuel of at least the input length gives the same `parseParamsF`
result: the loop always stops by itself first. -/
theorem parseParamsF_fuel_eq : ∀ fuel fuel' : Nat, ∀ input : Str,
    input.length ≤ fuel → input.length ≤ fuel' →
    parseParamsF fuel input = parseParamsF fuel' input := by
  intro fuel
  induction fuel with
  | zero =>
    intro fuel' input h h'
    have : input = [] := List.eq_nil_of_length_eq_zero (Nat.le_zero.mp h)
    subst this
    cases fuel' with
    | zero => rfl
    | succ f => simp [parseParamsF, parseParameter_nil]
  | succ f ih =>
    intro fuel' input h h'
    cases fuel' with
    | zero =>
      have : input = [] := List.eq_nil_of_length_eq_zero (Nat.le_zero.mp h')
      subst this
      simp [parseParamsF, parseParameter_nil]
    | succ f' =>
      show parseParamsF (f + 1) input = parseParamsF (f' + 1) input
      unfold parseParamsF
      rcases hp : parseParameter input with _ | ⟨rest, p⟩
      · rfl
      · have hlt := parseParameter_consumes hp
        dsimp only
        rw [ih f' rest (by omega) (by omega)]

/-- Unfolding `parseParams` one step: stop on parameter failure, else consume
one parameter and continue on the rest. -/
theorem parseParams_step (input : Str) :
    parseParams input =
      match parseParameter input with
      | none => (input, [])
      | some (rest, p) =>
        let (r, ps) := parseParams rest
        (r, p :: ps) := by
  have h1 : parseParams input = parseParamsF (input.length + 1) input :=
    parseParamsF_fuel_eq input.length (input.length + 1) input (le_refl _) (by omega)
  rw [h1]
  show (match parseParameter input with
        | none => (input, [])
        | some (rest, p) =>
          let (r, ps) := parseParamsF input.length rest
          (r, p :: ps)) = _
  rcases hp : parseParameter input with _ | ⟨rest, p⟩
  · rfl
  · have hlt := parseParameter_consumes hp
    dsimp only
    rw [parseParamsF_fuel_eq input.length rest.length rest (by omega) (le_refl _)]
    rfl

example : parseLine "PING :server.example".data
    = .ok [] { source := none, command := .Ping,
               target := some "server.example".data, parameters := [] } := by decide

example : parseLine ":nick!ident@host PRIVMSG #chan :hello world".data
    = .ok [] { source := some "nick!ident@host".data, command := .Privmsg,
               target := some "#chan".data,
               parameters := ["hello world".data] } := by decide

example : send_message { source := none, command := .Privmsg,
                         target := some "#chan".data,
                         parameters := ["hi there".data] }
    = .ok "PRIVMSG #chan :hi there\r\n".data := rfl

/-- C1 counterexample: a socket read that returns zero bytes while the
receive buffer is empty does NOT end the read side normally: the code returns
`Err(anyhow!("closed connection by peer"))` (src/irc.rs:253-255), which the
read task `unwrap`s into a panic, so the completion handle reports a failure,
not the clean "peer closed" outcome the claim states. -/
theorem zero_read_empty_buffer_not_clean :
    receive_messages [] [] = ReadStep.closedErr
    ∧ readTaskEnd (receive_messages [] [])
        = some (TaskEnd.failed "closed connection by peer")
    ∧ readTaskEnd (receive_messages [] []) ≠ some TaskEnd.clean :=
  ⟨rfl, rfl, by decide⟩

/-- C1 (amended): a zero-byte socket read always makes the read task fail —
with the error "closed connection by peer" when the receive buffer is empty
(`Err` at src/irc.rs:255, turned into a panic by the `unwrap` at
src/irc.rs:228), and with the panic "unread data in read buffer"
(src/irc.rs:257) when a non-empty partial line is still buffered; in either
case the completion handle reports a failure, never a clean end. -/
theorem zero_read_always_fails (buffer : List Nat) :
    readTaskEnd (receive_messages [] buffer)
      = some (TaskEnd.failed (if buffer.isEmpty then "closed connection by peer"
                              else "unread data in read buffer"))
    ∧ readTaskEnd (receive_messages [] buffer) ≠ some TaskEnd.clean := by
  unfold receive_messages
  by_cases h : buffer.isEmpty <;>
    simp [h, readTaskEnd]

/-- C2 counterexample: decoding `"PING :server.example"` does NOT leave the
colon-prefixed trailing parameter in `parameters` with `target = none`; being
the first parsed parameter, it is promoted to `target` (src/irc.rs:88-92),
leaving `parameters` empty. -/
theorem ping_decode_counterexample :
    parseLine "PING :server.example".data
      = ParseResult.ok [] { source := none, command := .Ping,
                            target := some "server.example".data, parameters := [] }
    ∧ (some "server.example".data : Option Str) ≠ none
    ∧ ([] : List Str) ≠ ["server.example".data] :=
  ⟨by decide, by decide, by decide⟩

/-- C2 (amended): decoding `"PING :server.example"` yields `command = Ping`
and the trailing parameter promoted to the target: `target =
some "server.example"` and `parameters = []`. -/
theorem ping_decode :
    parseLine "PING :server.example".data
      = ParseResult.ok [] { source := none, command := .Ping,
                            target := some "server.example".data,
                            parameters := [] } := by decide

/-- C4: attempting to send a reply-only command (`ErrNicknameInUse` or
`RplWelcome`) fails: `send_message` returns the protocol-logic error
`"invalid command"` synchronously to its caller (the verb conversion at
src/irc.rs:190 propagates the `Err` of src/irc.rs:138-141 before anything is
written), and the send task surfaces it as a panic (the `unwrap` at
src/irc.rs:238) rather than silently dropping the message: no wire line is
ever produced for it. -/
theorem reply_only_send_fails (msg : Message)
    (h : msg.command = Command.ErrNicknameInUse ∨ msg.command = Command.RplWelcome) :
    send_message msg = .error "invalid command"
    ∧ sendTaskStep msg = .panicked "invalid command"
    ∧ ∀ line, sendTaskStep msg ≠ .wrote line := by
  have hc : commandToString msg.command = .error "invalid command" := by
    rcases h with h | h <;> rw [h] <;> rfl
  have hs : send_message msg = .error "invalid command" := by
    unfold send_message
    rw [hc]
  refine ⟨hs, ?_, ?_⟩
  · unfold sendTaskStep
    rw [hs]
  · intro line
    unfold sendTaskStep
    rw [hs]
    simp

/-- C4 witness: the failure is observable on a concrete `433` reply message. -/
theorem reply_only_send_fails_witness :
    send_message { source := none, command := Command.ErrNicknameInUse,
                   target := none, parameters := [] } = .error "invalid command"
    ∧ sendTaskStep { source := none, command := Command.ErrNicknameInUse,
                     target := none, parameters := [] } = .panicked "invalid command" :=
  ⟨(reply_only_send_fails _ (Or.inl rfl)).1, (reply_only_send_fails _ (Or.inl rfl)).2.1⟩

/-- C7: for every event the control loop receives: a `Ping` is answered by
re-enqueueing the received event itself (and the `Ping` command encodes on
the wire as the verb `PONG`); an `ErrNicknameInUse` with at least one
parameter is answered by a nickname-change command appending `_` to the first
non-target parameter; an `RplWelcome` enqueues one `Join` per configured
channel; any other event causes no send (src/bot.rs:66-71,
src/irc.rs:344-361). -/
theorem control_loop_dispatch (channels : List Str) (msg : Message) :
    (msg.command = .Ping → controlLoopStep channels msg = some [msg])
    ∧ commandToString Command.Ping = .ok "PONG".data
    ∧ (∀ p ps, msg.command = .ErrNicknameInUse → msg.parameters = p :: ps →
        controlLoopStep channels msg = some [Message.nick (p ++ ['_'])])
    ∧ (msg.command = .RplWelcome →
        controlLoopStep channels msg = some (channels.map Message.join))
    ∧ (msg.command ≠ .Ping → msg.command ≠ .ErrNicknameInUse →
        msg.command ≠ .RplWelcome → controlLoopStep channels msg = some []) := by
  refine ⟨?_, rfl, ?_, ?_, ?_⟩
  · intro h
    unfold controlLoopStep
    rw [h]
  · intro p ps h hp
    unfold controlLoopStep
    rw [h, hp]
  · intro h
    unfold controlLoopStep
    rw [h]
  · intro h1 h2 h3
    unfold controlLoopStep
    rcases hc : msg.command with _ | _ | _ | _ | _ | _ | _ | v <;>
      first
      | rfl
      | exact absurd hc (by simp_all)

/-- A nonempty verb always converts: `Command::try_from` only fails on the
empty string (every unrecognized nonempty verb becomes `Other`). -/
theorem tryFrom_ok_of_ne_nil (s : Str) (h : s ≠ []) :
    ∃ c, Command.tryFrom s = .ok c := by
  unfold Command.tryFrom
  rw [if_neg (by simpa [List.isEmpty_iff] using h)]
  repeat' split
  all_goals exact ⟨_, rfl⟩

/-- C10: the code is NOT panic-free as claimed. Decoding the bare-verb line
`"AWAY"` (a verb that parses with zero parameters, as decoding the actual
wire bytes `"AWAY\r\n"` would produce) reaches the unconditional
`params[1..]` slice of src/irc.rs:95 with an empty parameter vector and
panics — the spec instead promises that a line with no parameters yields an
event with no target. The narrower unwrap-safety reasoning of the claim is
right: the verb token is nonempty, `Command::try_from` only fails for the
empty string (every nonempty unrecognized verb maps to `Other`), and indeed
every panic of the post-source stage comes from the empty-parameter slice,
never from the verb-conversion `unwrap`. -/
theorem parse_line_empty_params_panic :
    parseLine "AWAY".data = ParseResult.panicked
    ∧ (∀ s : Str, s = [] ∨ ∃ c, Command.tryFrom s = .ok c)
    ∧ Command.tryFrom [] = .error "empty string as command"
    ∧ (∀ (source : Option Str) (i2 : Str),
        parseLineAfterSource source i2 = ParseResult.panicked →
        ∃ i3 tok c, takeTill1 is_space i2 = some (i3, tok)
          ∧ Command.tryFrom tok = .ok c
          ∧ (parseParams (skipSpace i3)).2 = []) := by
  refine ⟨by decide, ?_, rfl, ?_⟩
  · intro s
    rcases hs : s with _ | ⟨c0, tl⟩
    · exact Or.inl rfl
    · exact Or.inr (tryFrom_ok_of_ne_nil _ (by simp))
  · intro source i2 h
    unfold parseLineAfterSource at h
    rcases ht : takeTill1 is_space i2 with _ | ⟨i3, tok⟩ <;> rw [ht] at h
    · cases h
    · dsimp only at h
      obtain ⟨c, hc⟩ := tryFrom_ok_of_ne_nil tok (takeTill1_eq_some ht).2.2
      rw [hc] at h
      dsimp only at h
      rcases hp : parseParams (skipSpace i3) with ⟨rest, params⟩
      rw [hp] at h
      dsimp only at h
      rcases params with _ | ⟨p, ps⟩
      · exact ⟨i3, tok, c, rfl, hc, by rw [hp]⟩
      · cases h

/-- Inversion of a successful `parseLineAfterSource`: the event's target and
parameters are the head and tail of the parsed parameter list. -/
theorem parseLineAfterSource_ok_inv (source : Option Str) (i2 rest : Str)
    (msg : Message) (h : parseLineAfterSource source i2 = .ok rest msg) :
    ∃ params : List Str, msg.target = params.head? ∧ msg.parameters = params.tail := by
  unfold parseLineAfterSource at h
  rcases ht : takeTill1 is_space i2 with _ | ⟨i3, tok⟩ <;> rw [ht] at h
  · cases h
  · dsimp only at h
    rcases hc : Command.tryFrom tok with e | c <;> rw [hc] at h
    · cases h
    · dsimp only at h
      rcases hp : parseParams (skipSpace i3) with ⟨r, params⟩
      rw [hp] at h
      dsimp only at h
      rcases params with _ | ⟨p, ps⟩
      · cases h
      · cases h
        exact ⟨p :: ps, rfl, rfl⟩

/-- Inversion of a successful `parseLine`, through the optional source. -/
theorem parseLine_ok_inv (input rest : Str) (msg : Message)
    (h : parseLine input = .ok rest msg) :
    ∃ params : List Str, msg.target = params.head? ∧ msg.parameters = params.tail := by
  unfold parseLine at h
  rcases hsw : startsWithColon input with ⟨i1, hasSource⟩
  rw [hsw] at h
  dsimp only at h
  cases hasSource with
  | false =>
    rw [if_neg (by simp)] at h
    exact parseLineAfterSource_ok_inv none i1 rest msg h
  | true =>
    rw [if_pos rfl] at h
    rcases ht : takeTill1 is_space i1 with _ | ⟨r2, src⟩ <;> rw [ht] at h
    · cases h
    · exact parseLineAfterSource_ok_inv (some src) (skipSpace r2) rest msg h

/-- C8 counterexample: the parameter list CAN contain the target value: in
`"PRIVMSG x x"` the target token's value recurs as a later parameter, so the
decoded event has `target = some "x"` while `"x"` is still in `parameters`. -/
theorem target_in_parameters_counterexample :
    parseLine "PRIVMSG x x".data
      = ParseResult.ok [] { source := none, command := .Privmsg,
                            target := some "x".data, parameters := ["x".data] }
    ∧ "x".data ∈ ["x".data] :=
  ⟨by decide, by decide⟩

/-- C8 (amended): for every successfully decoded line the first parsed
parameter, if any, is promoted to the event's target and all subsequent ones
remain as parameters; the promotion removes exactly the one leading
occurrence of the target value — `parameters` holds one fewer occurrence of
it than the parsed parameter list (so the target value appears in
`parameters` only when it occurred again later in the line) — and an event
with no target has no parameters. -/
theorem target_promotion (input rest : Str) (msg : Message)
    (h : parseLine input = .ok rest msg) :
    ∃ params : List Str,
      msg.target = params.head?
      ∧ msg.parameters = params.tail
      ∧ (∀ t, msg.target = some t → params.count t = msg.parameters.count t + 1)
      ∧ (msg.target = none → msg.parameters = []) := by
  obtain ⟨params, h1, h2⟩ := parseLine_ok_inv input rest msg h
  refine ⟨params, h1, h2, ?_, ?_⟩
  · intro t ht
    rcases params with _ | ⟨p, tl⟩
    · rw [h1] at ht
      cases ht
    · rw [h1] at ht
      have hpt : p = t := by simpa using ht
      subst hpt
      rw [h2]
      simp [List.count_cons]
  · intro hn
    rcases params with _ | ⟨p, tl⟩
    · rw [h2]
      rfl
    · rw [h1] at hn
      cases hn

/-- C8 witness: the promotion, observed on the concrete line
`"PRIVMSG #chan hello"`. -/
theorem target_promotion_witness :
    ∃ params : List Str,
      (some "#chan".data : Option Str) = params.head?
      ∧ ["hello".data] = params.tail
      ∧ (∀ t, (some "#chan".data : Option Str) = some t
          → params.count t = (["hello".data] : List Str).count t + 1)
      ∧ ((some "#chan".data : Option Str) = none → ["hello".data] = ([] : List Str)) :=
  target_promotion "PRIVMSG #chan hello".data []
    { source := none, command := .Privmsg, target := some "#chan".data,
      parameters := ["hello".data] } (by decide)

/-- `splitOnce` succeeds on a list assembled around a first occurrence. -/
theorem splitOnce_eq_some_of (c : Char) (a b : Str) (h : c ∉ a) :
    splitOnce c (a ++ c :: b) = some (a, b) := by
  induction a with
  | nil => simp [splitOnce]
  | cons y a' ih =>
    have hy : y ≠ c := fun hyc => h (hyc ▸ List.mem_cons_self y a')
    rw [List.cons_append]
    unfold splitOnce
    rw [if_neg hy, ih (fun hm => h (List.mem_cons_of_mem _ hm))]

/-- A successful `splitOnce` splits at the first occurrence: the prefix is
free of the separator and the list reassembles around it. -/
theorem splitOnce_some_shape (c : Char) : ∀ (l a b : Str),
    splitOnce c l = some (a, b) → l = a ++ c :: b ∧ c ∉ a := by
  intro l
  induction l with
  | nil => intro a b h; cases h
  | cons x xs ih =>
    intro a b h
    unfold splitOnce at h
    by_cases hx : x = c
    · rw [if_pos hx] at h
      obtain ⟨ha, hb⟩ : ([] : Str) = a ∧ xs = b := by
        constructor <;> [skip; skip] <;>
          first
          | exact congrArg Prod.fst (Option.some.inj h)
          | exact congrArg Prod.snd (Option.some.inj h)
      subst hx
      rw [← ha, ← hb]
      exact ⟨rfl, by simp⟩
    · rw [if_neg hx] at h
      rcases hs : splitOnce c xs with _ | ⟨a', b'⟩ <;> rw [hs] at h
      · cases h
      · obtain ⟨ha, hb⟩ : x :: a' = a ∧ b' = b := by
          constructor <;>
            first
            | exact congrArg Prod.fst (Option.some.inj h)
            | exact congrArg Prod.snd (Option.some.inj h)
        obtain ⟨hxs, hmem⟩ := ih a' b' hs
        subst hb
        rw [← ha, hxs]
        refine ⟨rfl, ?_⟩
        intro hcmem
        rcases List.mem_cons.mp hcmem with hh | hh
        · exact hx hh.symm
        · exact hmem hh

/-- The `source_as_user` view exists exactly for sources of the shape
`nick!ident@host` (splitting at the first `!` and the first `@` after it). -/
theorem source_as_user_iff (msg : Message) (u : User) :
    source_as_user msg = some u
      ↔ ∃ n i h, msg.source = some (n ++ '!' :: (i ++ '@' :: h))
          ∧ '!' ∉ n ∧ '@' ∉ i ∧ u = { nick := n, ident := i, host := h } := by
  unfold source_as_user
  rcases hsrc : msg.source with _ | src
  · simp
  · dsimp only
    constructor
    · intro h
      rcases h1 : splitOnce '!' src with _ | ⟨nick0, rest⟩ <;> rw [h1] at h
      · cases h
      · dsimp only at h
        rcases h2 : splitOnce '@' rest with _ | ⟨id0, host0⟩ <;> rw [h2] at h
        · cases h
        · dsimp only at h
          obtain ⟨hl1, hm1⟩ := splitOnce_some_shape '!' src nick0 rest h1
          obtain ⟨hl2, hm2⟩ := splitOnce_some_shape '@' rest id0 host0 h2
          refine ⟨nick0, id0, host0, ?_, hm1, hm2, ?_⟩
          · rw [hl1, hl2]
          · exact (Option.some.inj h).symm
    · rintro ⟨n, i, hh, hseq, hm1, hm2, hu⟩
      have hsrc2 : src = n ++ '!' :: (i ++ '@' :: hh) := Option.some.inj hseq
      subst hu
      rw [hsrc2, splitOnce_eq_some_of '!' n _ hm1]
      dsimp only
      rw [splitOnce_eq_some_of '@' i hh hm2]

/-- C9: decoding `":nick!ident@host PRIVMSG #chan :hello world"` yields
source `nick!ident@host`, command `Privmsg`, target `#chan` and the single
trailing parameter `hello world`; `source_as_user` on this event yields
nick/ident/host `nick`/`ident`/`host`; and in general `source_as_user`
returns a `User` exactly when the event's source matches the shape
`nick!ident@host` (first `!`, then first `@` after it), and nothing
otherwise. -/
theorem privmsg_decode_and_source_as_user :
    parseLine ":nick!ident@host PRIVMSG #chan :hello world".data
      = ParseResult.ok [] { source := some "nick!ident@host".data,
                            command := .Privmsg,
                            target := some "#chan".data,
                            parameters := ["hello world".data] }
    ∧ source_as_user { source := some "nick!ident@host".data,
                       command := .Privmsg,
                       target := some "#chan".data,
                       parameters := ["hello world".data] }
      = some { nick := "nick".data, ident := "ident".data, host := "host".data }
    ∧ (∀ (msg : Message) (u : User),
        source_as_user msg = some u
          ↔ ∃ n i h, msg.source = some (n ++ '!' :: (i ++ '@' :: h))
              ∧ '!' ∉ n ∧ '@' ∉ i ∧ u = { nick := n, ident := i, host := h }) :=
  ⟨by decide, by decide, source_as_user_iff⟩

/-- When configured hostnames are distinct, `Config::spawn_task`'s first-match
lookup returns exactly the bot whose hostname is asked for. -/
theorem spawnTask_self (bots : List Bot) (b : Bot) (hmem : b ∈ bots)
    (hnodup : (bots.map (fun x => x.server.1)).Nodup) :
    Config.spawnTask (Config.mk bots) b.server.1 = some b := by
  unfold Config.spawnTask
  induction bots with
  | nil => cases hmem
  | cons a rest ih =>
    rw [List.map_cons, List.nodup_cons] at hnodup
    rcases List.mem_cons.mp hmem with h | h
    · subst h
      exact List.find?_cons_of_pos _ (by simp)
    · have hne : (a.server.1 == b.server.1) = false := by
        apply beq_eq_false_iff_ne.mpr
        intro heq
        exact hnodup.1 (by rw [heq]; exact List.mem_map_of_mem _ h)
      rw [List.find?_cons_of_neg _ (by simp [hne])]
      exact ih h hnodup.2

/-- One failed outcome makes the reconnection loop spawn the looked-up
configuration once and continue. -/
theorem reconnectSpawns_cons_true (cfg : Config) (s : String) (rest : List Bool) :
    reconnectSpawns cfg s (true :: rest) =
      match Config.spawnTask cfg s with
      | some b => b :: reconnectSpawns cfg s rest
      | none => [] := by
  simp [reconnectSpawns]

/-- A clean outcome stops the reconnection loop with no further spawn. -/
theorem reconnectSpawns_cons_false (cfg : Config) (s : String) (rest : List Bool) :
    reconnectSpawns cfg s (false :: rest) = [] := by
  simp [reconnectSpawns]

/-- C5 counterexample: with two configured bots sharing a hostname, the
reconnection loop of the second bot's group restarts the FIRST bot's
configuration (the `find` at src/bot.rs:117 matches on hostname only), not
the same configuration the failed group was built from. -/
theorem restart_config_counterexample :
    (let botA : Bot := { server := ("irc.example.org", 6667), useTls := false,
                         nick := "boton", ident := "boton", realName := "bot one",
                         channels := [] }
     let botB : Bot := { server := ("irc.example.org", 6697), useTls := true,
                         nick := "otherbot", ident := "otherbot", realName := "bot two",
                         channels := [] }
     botB ∈ (Config.mk [botA, botB]).bots
     ∧ reconnectSpawns (Config.mk [botA, botB]) botB.server.1 [true, false] = [botA]
     ∧ botA ≠ botB) := by
  refine ⟨by decide, by decide, by decide⟩

/-- C5 (amended): per configured server (with hostnames distinct across the
configuration, so that the hostname-keyed restart lookup finds the same
configuration), when the connection group completes the bot task cancels the
control-loop task and every plugin task; the reconnection loop restarts the
group once per failed outcome, immediately, with the same configuration and
with no retry limit (any number `n` of leading failures yields exactly `n`
restarts of the same bot), and stops permanently at the first clean outcome —
whatever outcomes might follow, a clean completion is never followed by a
restart. -/
theorem supervisor_restart_policy (cfg : Config) (b : Bot)
    (hmem : b ∈ cfg.bots)
    (hnodup : (cfg.bots.map (fun x => x.server.1)).Nodup) :
    (∀ n tail, reconnectSpawns cfg b.server.1 (List.replicate n true ++ false :: tail)
        = List.replicate n b)
    ∧ (∀ tail, reconnectSpawns cfg b.server.1 (false :: tail) = [])
    ∧ (∀ plugins : List String, SupAction.abortControlLoop ∈ botTeardown plugins
        ∧ ∀ p ∈ plugins, SupAction.abortPlugin p ∈ botTeardown plugins) := by
  have hfind : Config.spawnTask cfg b.server.1 = some b := by
    rcases cfg with ⟨bots⟩
    exact spawnTask_self bots b hmem hnodup
  refine ⟨?_, fun tail => reconnectSpawns_cons_false cfg b.server.1 tail, ?_⟩
  · intro n tail
    induction n with
    | zero =>
      rw [List.replicate, List.nil_append, reconnectSpawns_cons_false]
      rfl
    | succ k ihk =>
      rw [List.replicate_succ, List.cons_append, reconnectSpawns_cons_true, hfind,
        ihk, List.replicate_succ]
  · intro plugins
    constructor
    · simp [botTeardown]
    · intro p hp
      unfold botTeardown
      rw [List.mem_append]
      exact Or.inl (List.mem_map_of_mem _ hp)

/-- C5 witness: the restart policy at a concrete one-server configuration. -/
theorem supervisor_restart_policy_witness :
    (∀ n tail,
      reconnectSpawns
        (Config.mk [{ server := ("irc.example.org", 6667), useTls := false,
                      nick := "boton", ident := "boton", realName := "boton",
                      channels := ["#boton"] }]) "irc.example.org"
        (List.replicate n true ++ false :: tail)
      = List.replicate n { server := ("irc.example.org", 6667), useTls := false,
                           nick := "boton", ident := "boton", realName := "boton",
                           channels := ["#boton"] })
    ∧ (∀ tail,
        reconnectSpawns
          (Config.mk [{ server := ("irc.example.org", 6667), useTls := false,
                        nick := "boton", ident := "boton", realName := "boton",
                        channels := ["#boton"] }]) "irc.example.org"
          (false :: tail) = [])
    ∧ (∀ plugins : List String, SupAction.abortControlLoop ∈ botTeardown plugins
        ∧ ∀ p ∈ plugins, SupAction.abortPlugin p ∈ botTeardown plugins) :=
  supervisor_restart_policy
    (Config.mk [{ server := ("irc.example.org", 6667), useTls := false,
                  nick := "boton", ident := "boton", realName := "boton",
                  channels := ["#boton"] }])
    { server := ("irc.example.org", 6667), useTls := false, nick := "boton",
      ident := "boton", realName := "boton", channels := ["#boton"] }
    (by decide) (by decide)

/-- Scanning a space-free token followed by a space (or the end of input)
takes exactly the token and leaves exactly the remainder. -/
theorem takeWhile_dropWhile_token (tok rest : Str) (hsp : ' ' ∉ tok)
    (hrest : rest.head? = some ' ' ∨ rest = []) :
    (tok ++ rest).takeWhile (fun c => !is_space c) = tok
    ∧ (tok ++ rest).dropWhile (fun c => !is_space c) = rest := by
  induction tok with
  | nil =>
    rcases hrest with h | h
    · rcases rest with _ | ⟨c, tl⟩
      · simp at h
      · have hc : c = ' ' := by simpa using h
        subst hc
        constructor
        · rw [List.nil_append, List.takeWhile_cons, if_neg (by simp [is_space])]
        · rw [List.nil_append, List.dropWhile_cons, if_neg (by simp [is_space])]
    · subst h
      simp
  | cons c tl ih =>
    have hc : c ≠ ' ' := fun hh => hsp (hh ▸ List.mem_cons_self c tl)
    obtain ⟨h1, h2⟩ := ih (fun hm => hsp (List.mem_cons_of_mem _ hm))
    constructor
    · rw [List.cons_append, List.takeWhile_cons, if_pos (by simp [is_space, hc]), h1]
    · rw [List.cons_append, List.dropWhile_cons, if_pos (by simp [is_space, hc]), h2]

/-- `take_till1 is_space` on a token followed by a space-or-end remainder. -/
theorem takeTill1_token (tok rest : Str) (hne : tok ≠ []) (hsp : ' ' ∉ tok)
    (hrest : rest.head? = some ' ' ∨ rest = []) :
    takeTill1 is_space (tok ++ rest) = some (rest, tok) := by
  obtain ⟨h1, h2⟩ := takeWhile_dropWhile_token tok rest hsp hrest
  simp only [takeTill1]
  rw [h1, h2, if_neg (by simpa [List.isEmpty_iff] using hne)]

/-- A colon-initial parameter consumes the whole remainder of the line. -/
theorem parseParameter_colon (rest : Str) :
    parseParameter (':' :: rest) = some ([], rest) := rfl

/-- A valid token followed by a space-or-end remainder parses as one
parameter, with the trailing spaces skipped. -/
theorem parseParameter_token (tok rest : Str) (hv : validToken tok)
    (hrest : rest.head? = some ' ' ∨ rest = []) :
    parseParameter (tok ++ rest) = some (skipSpace rest, tok) := by
  obtain ⟨hne, hsp, hcol⟩ := hv
  have hhead : ¬ ((tok ++ rest).head? = some ':') := by
    rcases tok with _ | ⟨c, tl⟩
    · exact absurd rfl hne
    · simpa using hcol
  unfold parseParameter startsWithColon
  rw [if_neg hhead]
  dsimp only
  rw [if_neg (by simp), takeTill1_token tok rest hne hsp hrest]

/-- The encoded parameter block always starts with a space. -/
theorem encodeParams_head (ps : List Str) (h : ps ≠ []) :
    (encodeParams ps).head? = some ' ' := by
  rcases ps with _ | ⟨p, rest⟩
  · exact absurd rfl h
  · rcases rest with _ | ⟨q, rest'⟩ <;> rfl

/-- Decoding the encoded parameter block (after the spaces separating it from
the previous token are skipped) recovers exactly the parameter list, provided
every parameter but the last is a valid token; the last parameter may be
anything — empty, spaced or colon-initial — thanks to its colon prefix. -/
theorem parseParams_encodeParams : ∀ ps : List Str,
    (∀ p ∈ ps.dropLast, validToken p) →
    parseParams (skipSpace (encodeParams ps)) = ([], ps) := by
  intro ps
  induction ps with
  | nil => intro _; rfl
  | cons p qs ih =>
    intro hmid
    rcases qs with _ | ⟨q, rest⟩
    · have h1 : skipSpace (encodeParams [p]) = ':' :: p := by
        show skipSpace (' ' :: ':' :: p) = _
        rw [skipSpace, List.dropWhile_cons, if_pos (by simp),
          List.dropWhile_cons, if_neg (by simp)]
      rw [h1, parseParams_step, parseParameter_colon]
      rfl
    · have hvp : validToken p := hmid p (by simp)
      obtain ⟨hne, hsp, hcol⟩ := hvp
      have h1 : skipSpace (encodeParams (p :: q :: rest))
          = p ++ encodeParams (q :: rest) := by
        show skipSpace (' ' :: (p ++ encodeParams (q :: rest))) = _
        rw [skipSpace, List.dropWhile_cons, if_pos (by simp)]
        rcases p with _ | ⟨c, tl⟩
        · exact absurd rfl hne
        · have hc : c ≠ ' ' := fun hh => hsp (hh ▸ List.mem_cons_self c tl)
          rw [List.cons_append, List.dropWhile_cons, if_neg (by simp [hc])]
      have hmid' : ∀ x ∈ (q :: rest).dropLast, validToken x := by
        intro x hx
        exact hmid x (by simp at hx ⊢; exact Or.inr hx)
      rw [h1, parseParams_step,
        parseParameter_token p (encodeParams (q :: rest)) ⟨hne, hsp, hcol⟩
          (Or.inl (encodeParams_head _ (by simp)))]
      dsimp only
      rw [ih hmid']

/-- Decoding the encoded target-and-parameters block recovers the target
(as first parsed parameter) followed by the parameters. -/
theorem parseParams_encoded (target : Option Str) (ps : List Str)
    (hshape : wellFormedShape target ps) :
    parseParams (skipSpace (encodeTarget target ps ++ encodeParams ps))
      = ([], target.toList ++ ps) := by
  obtain ⟨hmid, hts⟩ := hshape
  rcases target with _ | t
  · exact hts.elim
  · rcases ps with _ | ⟨p, qs⟩
    · rcases hts with hvt | hspace
      · obtain ⟨hne, hsp, hcol⟩ := hvt
        have hct : t.contains ' ' = false := by simpa using hsp
        have he : encodeTarget (some t) [] ++ encodeParams [] = ' ' :: t := by
          show (' ' :: ((if List.isEmpty [] && t.contains ' ' then [':'] else []) ++ t))
              ++ [] = ' ' :: t
          rw [hct]
          simp
        rw [he]
        have h1 : skipSpace (' ' :: t) = t := by
          rw [skipSpace, List.dropWhile_cons, if_pos (by simp)]
          rcases t with _ | ⟨c, tl⟩
          · exact absurd rfl hne
          · have hc : c ≠ ' ' := fun hh => hsp (hh ▸ List.mem_cons_self c tl)
            rw [List.dropWhile_cons, if_neg (by simp [hc])]
        rw [h1]
        have h2 : t = t ++ [] := by simp
        rw [parseParams_step]
        rw [show parseParameter t = some (skipSpace [], t) from by
          conv_lhs => rw [h2]
          exact parseParameter_token t [] ⟨hne, hsp, hcol⟩ (Or.inr rfl)]
        rfl
      · have hct : t.contains ' ' = true := by simpa using hspace
        have he : encodeTarget (some t) [] ++ encodeParams [] = ' ' :: ':' :: t := by
          show (' ' :: ((if List.isEmpty [] && t.contains ' ' then [':'] else []) ++ t))
              ++ [] = ' ' :: ':' :: t
          rw [hct]
          simp
        rw [he]
        have h1 : skipSpace (' ' :: ':' :: t) = ':' :: t := by
          rw [skipSpace, List.dropWhile_cons, if_pos (by simp),
            List.dropWhile_cons, if_neg (by simp)]
        rw [h1, parseParams_step, parseParameter_colon]
        rfl
    · obtain ⟨hne, hsp, hcol⟩ := hts
      have he : encodeTarget (some t) (p :: qs) ++ encodeParams (p :: qs)
          = ' ' :: (t ++ encodeParams (p :: qs)) := by
        show (' ' :: ((if List.isEmpty (p :: qs) && t.contains ' ' then [':'] else []) ++ t))
            ++ encodeParams (p :: qs) = _
        simp
      rw [he]
      have h1 : skipSpace (' ' :: (t ++ encodeParams (p :: qs)))
          = t ++ encodeParams (p :: qs) := by
        rw [skipSpace, List.dropWhile_cons, if_pos (by simp)]
        rcases t with _ | ⟨c, tl⟩
        · exact absurd rfl hne
        · have hc : c ≠ ' ' := fun hh => hsp (hh ▸ List.mem_cons_self c tl)
          rw [List.cons_append, List.dropWhile_cons, if_neg (by simp [hc])]
      rw [h1, parseParams_step,
        parseParameter_token t (encodeParams (p :: qs)) ⟨hne, hsp, hcol⟩
          (Or.inl (encodeParams_head _ (by simp)))]
      dsimp only
      rw [parseParams_encodeParams (p :: qs) hmid]
      rfl

/-- C3 counterexample: the round trip fails as universally stated: a message
with no target and the single space-free parameter `"hi"` encodes to
`"PRIVMSG :hi\r\n"`, but decoding that line promotes the parameter to the
target, so neither the target nor the parameters survive. -/
theorem send_roundtrip_counterexample :
    send_message { source := none, command := .Privmsg, target := none,
                   parameters := ["hi".data] } = .ok "PRIVMSG :hi\r\n".data
    ∧ parseLine "PRIVMSG :hi".data
        = ParseResult.ok [] { source := none, command := .Privmsg,
                              target := some "hi".data, parameters := [] }
    ∧ (some "hi".data : Option Str) ≠ none
    ∧ ([] : List Str) ≠ ["hi".data] :=
  ⟨rfl, by decide, by decide, by decide⟩

/-- C3 (amended): for every message whose command encodes to a valid verb
token (every fixed sendable verb does; an `Other` verb must be nonempty,
space-free and not colon-initial) and whose target/parameters are
well-formed for the wire format — all parameters but the last valid tokens,
the last parameter arbitrary, a present target a valid token (or, when it is
the sole token, allowed to contain spaces), and no parameters without a
target — encoding the message and decoding the resulting line yields an
event whose target and parameters equal the originals. -/
theorem send_roundtrip (msg : Message) (v : Str)
    (hv : commandToString msg.command = .ok v)
    (hvtok : validToken v)
    (hshape : wellFormedShape msg.target msg.parameters) :
    ∃ line msg',
      send_message msg = .ok (line ++ ['\r', '\n'])
      ∧ parseLine line = .ok [] msg'
      ∧ msg'.target = msg.target
      ∧ msg'.parameters = msg.parameters := by
  obtain ⟨hne, hsp, hcol⟩ := hvtok
  obtain ⟨t, hT⟩ : ∃ t, msg.target = some t := by
    rcases hT0 : msg.target with _ | t
    · rw [hT0] at hshape
      exact hshape.2.elim
    · exact ⟨t, rfl⟩
  obtain ⟨c, hc⟩ := tryFrom_ok_of_ne_nil v hne
  refine ⟨v ++ (encodeTarget msg.target msg.parameters ++ encodeParams msg.parameters),
    { source := none, command := c, target := some t,
      parameters := msg.parameters }, ?_, ?_, ?_, rfl⟩
  · unfold send_message
    rw [hv]
    dsimp only
    simp [List.append_assoc]
  · have hh : ¬ ((v ++ (encodeTarget msg.target msg.parameters
        ++ encodeParams msg.parameters)).head? = some ':') := by
      rcases v with _ | ⟨c0, tl⟩
      · exact absurd rfl hne
      · simpa using hcol
    have hrest : (encodeTarget msg.target msg.parameters
          ++ encodeParams msg.parameters).head? = some ' '
        ∨ (encodeTarget msg.target msg.parameters ++ encodeParams msg.parameters) = [] := by
      left
      rw [hT]
      rfl
    unfold parseLine
    rw [show startsWithColon (v ++ (encodeTarget msg.target msg.parameters
          ++ encodeParams msg.parameters))
        = (v ++ (encodeTarget msg.target msg.parameters
            ++ encodeParams msg.parameters), false) from by
      unfold startsWithColon
      rw [if_neg hh]]
    dsimp only
    rw [if_neg (by simp)]
    unfold parseLineAfterSource
    rw [takeTill1_token v _ hne hsp hrest]
    dsimp only
    rw [hc]
    dsimp only
    rw [parseParams_encoded msg.target msg.parameters hshape]
    dsimp only
    rw [hT]
    simp only [Option.toList, List.singleton_append]
  · exact hT.symm

/-- C3 witness: the round trip at the concrete message `PRIVMSG #chan` with
the single spaced trailing parameter `hi there`. -/
theorem send_roundtrip_witness :
    ∃ line msg',
      send_message { source := none, command := .Privmsg, target := some "#chan".data,
                     parameters := ["hi there".data] } = .ok (line ++ ['\r', '\n'])
      ∧ parseLine line = .ok [] msg'
      ∧ msg'.target = some "#chan".data
      ∧ msg'.parameters = ["hi there".data] :=
  send_roundtrip
    { source := none, command := .Privmsg, target := some "#chan".data,
      parameters := ["hi there".data] }
    "PRIVMSG".data rfl ⟨by decide, by decide, by decide⟩
    ⟨by simp, ⟨by decide, by decide, by decide⟩⟩

end Boton
